import Mathlib

/-!
Verification of the zhanor rule-tree organizer and its call sites.

The flat rule records, the database query helpers, the plugin-menu
construction and the request logger are embedded from `src/main.py`.
The tree organizer itself (`app/core/process_rules.py`, imported by
`src/main.py` as `organize_admin_rules` / `organize_user_rules`) is not
part of the reviewed sources, so it is modelled from the specification's
algorithm (spec §4.1), as are the orphan/cycle policies it describes.
-/

/-- Embeds the rule record shape shared by `AdminRule` and `UserRule`
(spec §3): `id` is the unique identifier, `pid` the parent id with `0`
denoting a root, `type` the discriminator ("menu" vs other kinds),
`status` the lifecycle flag ("normal" vs disabled), `weigh` the sibling
sort weight.  The remaining display metadata is opaque to every claim
and is represented by the single field `name`. -/
structure Rule where
  id : Nat
  pid : Nat
  type : String
  status : String
  weigh : Int
  name : String
  deriving DecidableEq, Repr

/-- Stable insertion of a rule into a list already sorted by `key`:
the rule goes in front of the first element whose key is ≥ its own, so
an element inserted later (i.e. earlier in the original input) precedes
elements of equal key. -/
def insertByKey (key : Rule → Int) (r : Rule) : List Rule → List Rule
  | [] => [r]
  | x :: xs => if key r ≤ key x then r :: x :: xs else x :: insertByKey key r xs

/-- Stable insertion sort by `key`, ascending.  Used both for the SQL
`ORDER BY id ASC` of the query helpers and for the per-group
stable sort by `weigh` of the organizer (spec §4.1 step 2). -/
def sortByKey (key : Rule → Int) : List Rule → List Rule
  | [] => []
  | r :: rs => insertByKey key r (sortByKey key rs)

/-- Ascending-id ordering, embedding `order_by(...id.asc())`. -/
def sortById (l : List Rule) : List Rule :=
  sortByKey (fun r => (r.id : Int)) l

/-- Embeds `get_admin_rules` (src/main.py lines 402-409): all admin
rules with `type="menu"` and `status="normal"`, ordered by id
ascending.  The database table is modelled as the list `db`. -/
def get_admin_rules (db : List Rule) : List Rule :=
  sortById (db.filter (fun r => r.type == "menu" && r.status == "normal"))

/-- Embeds `get_admin_rules_all` (src/main.py lines 412-417): all admin
rules with `status="normal"` (no type filter, no pid filter), ordered
by id ascending. -/
def get_admin_rules_all (db : List Rule) : List Rule :=
  sortById (db.filter (fun r => r.status == "normal"))

/-- Embeds `get_user_rules` (src/main.py lines 420-423):
`filter_by(pid=0, type="menu", status="normal")` ordered by id
ascending. -/
def get_user_rules (db : List Rule) : List Rule :=
  sortById (db.filter (fun r => r.pid == 0 && r.type == "menu" && r.status == "normal"))

/-- Embeds `get_user_rules_query` (src/main.py lines 426-437): the same
three conditions written as `filter(UserRule.pid == 0, UserRule.type ==
"menu", UserRule.status == "normal")`, ordered by id ascending. -/
def get_user_rules_query (db : List Rule) : List Rule :=
  sortById (db.filter (fun r => r.pid == 0 && r.type == "menu" && r.status == "normal"))

/-- Embeds `get_user_rules_all` (src/main.py lines 440-451): despite
the name, the same three conditions (`pid == 0`, `type == "menu"`,
`status == "normal"`), ordered by id ascending. -/
def get_user_rules_all (db : List Rule) : List Rule :=
  sortById (db.filter (fun r => r.pid == 0 && r.type == "menu" && r.status == "normal"))

/-- Embeds one entry of the `admin_menu` array of a plugin's
`plugin.json` manifest, restricted to the fields that reach the `Rule`
shape used here (src/main.py lines 222-244). -/
structure PluginMenuItem where
  id : Nat
  pid : Nat
  type : String
  status : String
  weigh : Int
  name : String
  deriving DecidableEq, Repr

/-- Embeds the `AdminRule(...)` construction inside
`scan_plugins_folder` (src/main.py lines 223-244): every field of the
manifest item, in particular `status=item["status"]`, is copied into
the new rule unchanged — no filtering is applied. -/
def adminRuleOfPluginItem (it : PluginMenuItem) : Rule :=
  { id := it.id, pid := it.pid, type := it.type, status := it.status,
    weigh := it.weigh, name := it.name }

/-- Embeds the accumulation of `plugin_admin_rules` by
`scan_plugins_folder` (src/main.py lines 221-245): every `admin_menu`
item of every enabled plugin becomes an `AdminRule`, appended in
manifest order. -/
def plugin_admin_rules (items : List PluginMenuItem) : List Rule :=
  items.map adminRuleOfPluginItem

/-- Embeds the admin-rule call-site input built by
`inject_global_variables` (src/main.py lines 289-290, 296):
`admin_rules = get_admin_rules()` followed by
`admin_rules.extend(plugin_admin_rules)`; the result is what
`organize_admin_rules` receives. -/
def admin_rules_input (db : List Rule) (items : List PluginMenuItem) : List Rule :=
  get_admin_rules db ++ plugin_admin_rules items

/-- Embeds the user-rule call-site input built by
`inject_global_variables` (src/main.py lines 292-294): `user_rules =
get_user_rules()`; the `user_rules.extend(plugin_user_rules)` line is
commented out in the source, so plugin user rules never reach
`organize_user_rules`. -/
def user_rules_input (db : List Rule) : List Rule :=
  get_user_rules db

/-- Modelled from the spec: `RuleNode` (spec §4.1 contract) wraps a
rule together with its derived `children`, a freshly allocated
structure separate from the input records (spec §3: `children` is
derived, not stored). -/
inductive RuleNode where
  | mk (rule : Rule) (children : List RuleNode)
  deriving Repr

/-- The rule wrapped by a node. -/
def RuleNode.rule : RuleNode → Rule
  | .mk r _ => r

/-- The children of a node. -/
def RuleNode.children : RuleNode → List RuleNode
  | .mk _ ks => ks

/-- Modelled from the spec: the `pid -> OrderedSequence<Rule>` group of
spec §4.1 step 2 — the input rules whose `pid` equals `p`, in input
order, stable-sorted by `weigh` ascending. -/
def childrenOf (rules : List Rule) (p : Nat) : List Rule :=
  sortByKey Rule.weigh (rules.filter (fun r => r.pid == p))

/-- Modelled from the spec: recursive assembly of one `RuleNode` (spec
§4.1 step 3), tracking the visited ids along the current path and
skipping a node whose id is already on the path (spec §4.1 step 5, the
cycle policy).  `app/core/process_rules.py` is absent from the
reviewed sources, so this is the specification's algorithm.  The fuel
argument only bounds the recursion depth for Lean's termination
checker; `organize` supplies `rules.length + 1`, which the path of
pairwise-distinct ids drawn from `rules` can never exhaust. -/
def build (rules : List Rule) : Nat → List Nat → Rule → Option RuleNode
  | 0, _, _ => none
  | fuel + 1, visited, r =>
    if r.id ∈ visited then none
    else some (RuleNode.mk r
      ((childrenOf rules r.id).filterMap (build rules fuel (r.id :: visited))))

/-- Modelled from the spec: `organize` (spec §4.1) — the roots are the
entries with `pid == 0`, stable-sorted by `weigh` like every sibling
group, each assembled recursively; rules whose `pid` matches no id are
never attached anywhere and are thereby dropped silently (spec §4.1
step 4). -/
def organize (rules : List Rule) : List RuleNode :=
  (childrenOf rules 0).filterMap (build rules (rules.length + 1) [])

mutual

/-- All rules reachable in a node's subtree, the node's own rule
first. -/
def RuleNode.allRules : RuleNode → List Rule
  | .mk r kids => r :: allRulesList kids

/-- All rules reachable in a forest, left to right. -/
def allRulesList : List RuleNode → List Rule
  | [] => []
  | t :: ts => t.allRules ++ allRulesList ts

end

mutual

/-- All nodes of a subtree, the root first. -/
def RuleNode.allNodes : RuleNode → List RuleNode
  | .mk r kids => .mk r kids :: allNodesList kids

/-- All nodes of a forest, left to right. -/
def allNodesList : List RuleNode → List RuleNode
  | [] => []
  | t :: ts => t.allNodes ++ allNodesList ts

end

/-- The rules reachable in the forest returned by `organize`. -/
def forestRules (f : List RuleNode) : List Rule :=
  allRulesList f

/-- The ids reachable in a forest. -/
def forestIds (f : List RuleNode) : List Nat :=
  (forestRules f).map Rule.id

mutual

/-- Checks that along every root-to-node path of the subtree no id of
`forbidden` (the ids of the ancestors above the subtree) recurs and no
id repeats: the tree contains no remnant of a `pid` cycle. -/
def pathDistinct (forbidden : List Nat) : RuleNode → Bool
  | .mk r kids => !forbidden.contains r.id && pathDistinctList (r.id :: forbidden) kids

/-- `pathDistinct` over a forest of sibling subtrees. -/
def pathDistinctList (forbidden : List Nat) : List RuleNode → Bool
  | [] => true
  | t :: ts => pathDistinct forbidden t && pathDistinctList forbidden ts

end

mutual

/-- Structural identity of two rule trees: same rule at the root and
structurally identical children, position by position. -/
def structEq : RuleNode → RuleNode → Bool
  | .mk r1 k1, .mk r2 k2 => r1 == r2 && structEqList k1 k2

/-- Structural identity of two forests. -/
def structEqList : List RuleNode → List RuleNode → Bool
  | [], [] => true
  | t :: ts, u :: us => structEq t u && structEqList ts us
  | _, _ => false

end

/-- Modelled from the spec: a rule is neither orphaned nor cyclic
(spec §4.1 steps 4-5, §7) iff following its `pid` links through the
input set reaches the root sentinel `0` without revisiting an id and
without hitting a missing parent.  The fuel `rules.length + 1` can
never be exhausted before the visited list repeats when the input ids
are distinct. -/
def liveB (rules : List Rule) : Nat → List Nat → Rule → Bool
  | 0, _, _ => false
  | fuel + 1, visited, x =>
    if x.id ∈ visited then false
    else if x.pid == 0 then true
    else
      match rules.find? (fun p => p.id == x.pid) with
      | some p => liveB rules fuel (x.id :: visited) p
      | none => false

/-- The rules of the input that are neither orphaned nor cyclic. -/
def liveRules (rules : List Rule) : List Rule :=
  rules.filter (fun r => liveB rules (rules.length + 1) [] r)

/-- Embeds a JSON scalar value of a request body.  Only the shape
matters to the logger: the redaction replaces the whole value stored
under `"password"` with the empty string. -/
inductive JVal where
  | str (s : String)
  | num (n : Int)
  deriving DecidableEq, Repr

/-- Embeds a Python `dict` parsed from a request's JSON body: an
ordered association list of key/value pairs (Python dicts preserve
insertion order and have unique keys). -/
abbrev JDict := List (String × JVal)

/-- Embeds `"password" in log_json` on a dict. -/
def hasKey (d : JDict) (k : String) : Bool :=
  d.any (fun p => p.1 == k)

/-- Embeds Python dict item lookup. -/
def dictGet (d : JDict) (k : String) : Option JVal :=
  (d.find? (fun p => p.1 == k)).map (fun p => p.2)

/-- Embeds Python dict item assignment `d[k] = v`: replaces the value
at an existing key in place, otherwise appends the pair at the end. -/
def dictSet (d : JDict) (k : String) (v : JVal) : JDict :=
  if hasKey d k then d.map (fun p => if p.1 == k then (k, v) else p)
  else d ++ [(k, v)]

/-- A deterministic rendering of a JSON scalar, standing for the
serialization performed by `json.dumps`. -/
def serializeJVal : JVal → String
  | .str s => "\"" ++ s ++ "\""
  | .num n => toString n

/-- A deterministic rendering of a dict, standing for
`json.dumps(log_json)` (src/main.py line 120): the serialized content
is a function of the dict alone. -/
def serializeJDict (d : JDict) : String :=
  "\x7b" ++ String.intercalate "," (d.map (fun p => serializeJVal (.str p.1) ++ ":" ++ serializeJVal p.2)) ++ "\x7d"

/-- Embeds the Python object heap as far as the logger touches it: the
dicts alive during one request, addressed by allocation index.  The
request's parsed JSON body is one entry; `dict.copy()` allocates a new
entry; item assignment mutates one entry in place. -/
structure PyHeap where
  dicts : List JDict
  deriving DecidableEq, Repr

/-- The dict stored at address `a` (the logger never follows a dangling
address; out-of-range reads default to the empty dict). -/
def PyHeap.get (h : PyHeap) (a : Nat) : JDict :=
  h.dicts.getD a []

/-- Embeds `dict.copy()`-style allocation: the new dict is appended to
the heap and its fresh address returned. -/
def PyHeap.alloc (h : PyHeap) (d : JDict) : PyHeap × Nat :=
  (⟨h.dicts ++ [d]⟩, h.dicts.length)

/-- Embeds the in-place item assignment `heap[a][k] = v`. -/
def PyHeap.setItem (h : PyHeap) (a : Nat) (k : String) (v : JVal) : PyHeap :=
  ⟨h.dicts.set a (dictSet (h.get a) k v)⟩

/-- Embeds `log_request_data` (src/main.py lines 109-137) up to the
construction of the logged `content` string: the request JSON at
address `rjAddr` is copied (`log_json = request_json.copy()`, line
116), the copy — and only the copy — has its `"password"` entry
overwritten with the empty string (lines 117-118), and the copy is
serialized (`content_str = json.dumps(log_json)`, line 120).  The
whole body is wrapped in `try/except Exception` (lines 111, 136), so
the function is total and never propagates an exception; the database
write of the resulting record is outside the reviewed logic.  Returns
the heap after the call together with the logged content string. -/
def log_request_data (h : PyHeap) (rjAddr : Nat) : PyHeap × String :=
  let rj := h.get rjAddr
  let (h1, logAddr) := h.alloc rj
  let h2 := if hasKey (h1.get logAddr) "password"
            then h1.setItem logAddr "password" (JVal.str "")
            else h1
  (h2, serializeJDict (h2.get logAddr))

theorem insertByKey_perm (key : Rule → Int) (r : Rule) (l : List Rule) :
    (insertByKey key r l).Perm (r :: l) := by
  induction l with
  | nil => simp [insertByKey]
  | cons x xs ih =>
    simp only [insertByKey]
    by_cases h : key r ≤ key x
    · simp [h]
    · simp only [h, if_neg, ite_false]
      exact (ih.cons x).trans (List.Perm.swap r x xs)

theorem sortByKey_perm (key : Rule → Int) (l : List Rule) :
    (sortByKey key l).Perm l := by
  induction l with
  | nil => simp [sortByKey]
  | cons x xs ih =>
    exact (insertByKey_perm key x (sortByKey key xs)).trans (ih.cons x)

theorem mem_sortByKey {key : Rule → Int} {l : List Rule} {x : Rule} :
    x ∈ sortByKey key l ↔ x ∈ l :=
  (sortByKey_perm key l).mem_iff

theorem sortByKey_nodup {key : Rule → Int} {l : List Rule} (h : l.Nodup) :
    (sortByKey key l).Nodup :=
  ((sortByKey_perm key l).nodup_iff).2 h

theorem insertByKey_pairwise {key : Rule → Int} {r : Rule} {l : List Rule}
    (h : l.Pairwise (fun a b => key a ≤ key b)) :
    (insertByKey key r l).Pairwise (fun a b => key a ≤ key b) := by
  induction l with
  | nil => simp [insertByKey]
  | cons x xs ih =>
    simp only [insertByKey]
    by_cases hle : key r ≤ key x
    · rw [if_pos hle]
      refine List.pairwise_cons.2 ⟨?_, h⟩
      intro y hy
      rcases List.mem_cons.1 hy with hy1 | hy2
      · exact hy1 ▸ hle
      · exact le_trans hle ((List.pairwise_cons.1 h).1 y hy2)
    · have hx := List.pairwise_cons.1 h
      rw [if_neg hle]
      refine List.pairwise_cons.2 ⟨?_, ih hx.2⟩
      intro y hy
      have hmem : y ∈ r :: xs := (insertByKey_perm key r xs).mem_iff.1 hy
      rcases List.mem_cons.1 hmem with hy1 | hy2
      · exact hy1 ▸ le_of_lt (lt_of_not_ge hle)
      · exact hx.1 y hy2

theorem sortByKey_pairwise (key : Rule → Int) (l : List Rule) :
    (sortByKey key l).Pairwise (fun a b => key a ≤ key b) := by
  induction l with
  | nil => simp [sortByKey]
  | cons x xs ih => exact insertByKey_pairwise ih

theorem insertByKey_filter_eq {key : Rule → Int} {w : Int} (r : Rule) (l : List Rule)
    (h : key r = w) :
    (insertByKey key r l).filter (fun a => key a == w) =
      r :: l.filter (fun a => key a == w) := by
  induction l with
  | nil => simp [insertByKey, List.filter_cons, h]
  | cons x xs ih =>
    simp only [insertByKey]
    by_cases hle : key r ≤ key x
    · rw [if_pos hle, List.filter_cons, List.filter_cons]
      simp [h]
    · have hx : (key x == w) = false := by
        have hlt : key x < key r := lt_of_not_ge hle
        rw [h] at hlt
        simpa using ne_of_lt hlt
      rw [if_neg hle, List.filter_cons, List.filter_cons, hx, ih]
      simp

theorem insertByKey_filter_ne {key : Rule → Int} {w : Int} (r : Rule) (l : List Rule)
    (h : key r ≠ w) :
    (insertByKey key r l).filter (fun a => key a == w) =
      l.filter (fun a => key a == w) := by
  have hr : (key r == w) = false := by simpa using h
  induction l with
  | nil => simp [insertByKey, List.filter_cons, hr]
  | cons x xs ih =>
    simp only [insertByKey]
    by_cases hle : key r ≤ key x
    · rw [if_pos hle, List.filter_cons, hr, List.filter_cons]
      simp
    · rw [if_neg hle, List.filter_cons, List.filter_cons, ih]

theorem sortByKey_filter_key (key : Rule → Int) (w : Int) (l : List Rule) :
    (sortByKey key l).filter (fun a => key a == w) = l.filter (fun a => key a == w) := by
  induction l with
  | nil => simp [sortByKey]
  | cons x xs ih =>
    simp only [sortByKey]
    by_cases hx : key x = w
    · rw [insertByKey_filter_eq x _ hx, ih, List.filter_cons]
      simp [hx]
    · rw [insertByKey_filter_ne x _ hx, ih, List.filter_cons]
      have hxb : (key x == w) = false := by simpa using hx
      rw [hxb]
      simp

/-- The rules of one assembled subtree: empty when the node was skipped
(cycle or exhausted fuel), otherwise all rules of the built tree. -/
def subRules (rules : List Rule) (fuel : Nat) (visited : List Nat) (r : Rule) : List Rule :=
  match build rules fuel visited r with
  | none => []
  | some t => t.allRules

theorem mem_childrenOf {rules : List Rule} {p : Nat} {c : Rule} :
    c ∈ childrenOf rules p ↔ c ∈ rules ∧ c.pid = p := by
  unfold childrenOf
  rw [mem_sortByKey, List.mem_filter]
  simp

theorem childrenOf_nodup {rules : List Rule} (h : rules.Nodup) (p : Nat) :
    (childrenOf rules p).Nodup :=
  sortByKey_nodup (h.filter _)

theorem allRulesList_nil : allRulesList [] = [] := by
  simp [allRulesList]

theorem allRulesList_cons (t : RuleNode) (ts : List RuleNode) :
    allRulesList (t :: ts) = t.allRules ++ allRulesList ts := by
  simp [allRulesList]

theorem allRules_mk (r : Rule) (kids : List RuleNode) :
    (RuleNode.mk r kids).allRules = r :: allRulesList kids := by
  simp [RuleNode.allRules]

theorem allRulesList_filterMap (f : Rule → Option RuleNode) (l : List Rule) :
    allRulesList (l.filterMap f) =
      l.flatMap (fun c => match f c with | none => [] | some t => t.allRules) := by
  induction l with
  | nil => simp [allRulesList]
  | cons c cs ih =>
    rw [List.filterMap_cons, List.flatMap_cons]
    cases hc : f c with
    | none => simpa [hc] using ih
    | some t => rw [allRulesList_cons, ih]

theorem subRules_zero (rules : List Rule) (visited : List Nat) (r : Rule) :
    subRules rules 0 visited r = [] := rfl

theorem build_succ (rules : List Rule) (fuel : Nat) (visited : List Nat) (r : Rule) :
    build rules (fuel + 1) visited r =
      if r.id ∈ visited then none
      else some (RuleNode.mk r
        ((childrenOf rules r.id).filterMap (build rules fuel (r.id :: visited)))) := rfl

theorem subRules_succ (rules : List Rule) (fuel : Nat) (visited : List Nat) (r : Rule) :
    subRules rules (fuel + 1) visited r =
      if r.id ∈ visited then []
      else r :: (childrenOf rules r.id).flatMap (subRules rules fuel (r.id :: visited)) := by
  unfold subRules
  rw [build_succ]
  by_cases h : r.id ∈ visited
  · simp [h]
  · rw [if_neg h, if_neg h]
    show (RuleNode.mk r _).allRules = _
    rw [allRules_mk, allRulesList_filterMap]

theorem forestRules_organize (rules : List Rule) :
    forestRules (organize rules) =
      (childrenOf rules 0).flatMap (subRules rules (rules.length + 1) []) := by
  unfold forestRules organize
  rw [allRulesList_filterMap]
  rfl

theorem subRules_root_not_visited {rules : List Rule} {fuel : Nat} {visited : List Nat}
    {r x : Rule} (h : x ∈ subRules rules fuel visited r) : r.id ∉ visited := by
  cases fuel with
  | zero => simp [subRules_zero] at h
  | succ fuel =>
    rw [subRules_succ] at h
    by_cases hv : r.id ∈ visited
    · simp [hv] at h
    · exact hv

theorem mem_subRules_cases {rules : List Rule} {fuel : Nat} {visited : List Nat}
    {r x : Rule} (h : x ∈ subRules rules (fuel + 1) visited r) :
    x = r ∨ ∃ c ∈ childrenOf rules r.id, x ∈ subRules rules fuel (r.id :: visited) c := by
  rw [subRules_succ] at h
  by_cases hv : r.id ∈ visited
  · simp [hv] at h
  · rw [if_neg hv] at h
    rcases List.mem_cons.1 h with h1 | h2
    · exact Or.inl h1
    · exact Or.inr (List.mem_flatMap.1 h2)

theorem self_mem_subRules {rules : List Rule} {fuel : Nat} {visited : List Nat}
    {r : Rule} (h : r.id ∉ visited) : r ∈ subRules rules (fuel + 1) visited r := by
  rw [subRules_succ, if_neg h]
  exact List.mem_cons_self r _

theorem mem_subRules_sub {rules : List Rule} {fuel : Nat} {visited : List Nat}
    {r c x : Rule} (hc : c ∈ childrenOf rules r.id)
    (hx : x ∈ subRules rules fuel (r.id :: visited) c) (hr : r.id ∉ visited) :
    x ∈ subRules rules (fuel + 1) visited r := by
  rw [subRules_succ, if_neg hr]
  exact List.mem_cons_of_mem r (List.mem_flatMap.2 ⟨c, hc, hx⟩)

theorem mem_rules_of_mem_subRules {rules : List Rule} :
    ∀ (fuel : Nat) (visited : List Nat) (r x : Rule),
      x ∈ subRules rules fuel visited r → x = r ∨ x ∈ rules := by
  intro fuel
  induction fuel with
  | zero => intro visited r x h; simp [subRules_zero] at h
  | succ fuel ih =>
    intro visited r x h
    rcases mem_subRules_cases h with h1 | ⟨c, hc, hx⟩
    · exact Or.inl h1
    · rcases ih _ c x hx with h2 | h2
      · exact Or.inr (h2 ▸ (mem_childrenOf.1 hc).1)
      · exact Or.inr h2

theorem id_not_visited_of_mem_subRules {rules : List Rule} :
    ∀ (fuel : Nat) (visited : List Nat) (r x : Rule),
      x ∈ subRules rules fuel visited r → x.id ∉ visited := by
  intro fuel
  induction fuel with
  | zero => intro visited r x h; simp [subRules_zero] at h
  | succ fuel ih =>
    intro visited r x h
    rcases mem_subRules_cases h with h1 | ⟨c, hc, hx⟩
    · exact h1 ▸ subRules_root_not_visited h
    · intro hv
      exact ih _ c x hx (List.mem_cons_of_mem _ hv)

theorem pid_mem_of_mem_subRules {rules : List Rule} :
    ∀ (fuel : Nat) (visited : List Nat) (r x : Rule), r ∈ rules →
      x ∈ subRules rules fuel visited r → x = r ∨ x.pid ∈ rules.map Rule.id := by
  intro fuel
  induction fuel with
  | zero => intro visited r x _ h; simp [subRules_zero] at h
  | succ fuel ih =>
    intro visited r x hr h
    rcases mem_subRules_cases h with h1 | ⟨c, hc, hx⟩
    · exact Or.inl h1
    · have hcr := mem_childrenOf.1 hc
      rcases ih _ c x hcr.1 hx with h2 | h2
      · refine Or.inr ?_
        rw [h2, hcr.2]
        exact List.mem_map.2 ⟨r, hr, rfl⟩
      · exact Or.inr h2

theorem pathDistinctList_iff (forbidden : List Nat) (ts : List RuleNode) :
    pathDistinctList forbidden ts = true ↔ ∀ t ∈ ts, pathDistinct forbidden t = true := by
  induction ts with
  | nil => simp [pathDistinctList]
  | cons t ts ih =>
    simp only [pathDistinctList, Bool.and_eq_true, ih, List.mem_cons]
    constructor
    · rintro ⟨h1, h2⟩ u hu
      rcases hu with hu | hu
      · exact hu ▸ h1
      · exact h2 u hu
    · intro h
      exact ⟨h t (Or.inl rfl), fun u hu => h u (Or.inr hu)⟩

theorem pathDistinct_mk (forbidden : List Nat) (r : Rule) (kids : List RuleNode) :
    pathDistinct forbidden (RuleNode.mk r kids) =
      (!forbidden.contains r.id && pathDistinctList (r.id :: forbidden) kids) := by
  simp [pathDistinct]

theorem build_pathDistinct {rules : List Rule} :
    ∀ (fuel : Nat) (visited : List Nat) (r : Rule) (t : RuleNode),
      build rules fuel visited r = some t → pathDistinct visited t = true := by
  intro fuel
  induction fuel with
  | zero => intro visited r t h; simp [build] at h
  | succ fuel ih =>
    intro visited r t h
    rw [build_succ] at h
    by_cases hv : r.id ∈ visited
    · simp [hv] at h
    · rw [if_neg hv] at h
      have ht : t = RuleNode.mk r
          ((childrenOf rules r.id).filterMap (build rules fuel (r.id :: visited))) :=
        (Option.some_injective _ h).symm
      subst ht
      rw [pathDistinct_mk, Bool.and_eq_true]
      refine ⟨by simpa using hv, ?_⟩
      rw [pathDistinctList_iff]
      intro k hk
      rcases List.mem_filterMap.1 hk with ⟨c, _, hck⟩
      exact ih _ c k hck

mutual

theorem structEq_refl : ∀ t : RuleNode, structEq t t = true
  | .mk r kids => by
    rw [structEq, Bool.and_eq_true]
    exact ⟨beq_self_eq_true r, structEqList_refl kids⟩

theorem structEqList_refl : ∀ ts : List RuleNode, structEqList ts ts = true
  | [] => by rw [structEqList]
  | t :: ts => by
    rw [structEqList, Bool.and_eq_true]
    exact ⟨structEq_refl t, structEqList_refl ts⟩

end

theorem build_rule {rules : List Rule} {fuel : Nat} {visited : List Nat} {r : Rule}
    {t : RuleNode} (h : build rules fuel visited r = some t) : t.rule = r := by
  cases fuel with
  | zero => simp [build] at h
  | succ fuel =>
    rw [build_succ] at h
    by_cases hv : r.id ∈ visited
    · simp [hv] at h
    · rw [if_neg hv] at h
      rw [← Option.some_injective _ h]
      rfl

theorem allNodesList_nil : allNodesList [] = [] := by
  simp [allNodesList]

theorem allNodesList_cons (t : RuleNode) (ts : List RuleNode) :
    allNodesList (t :: ts) = t.allNodes ++ allNodesList ts := by
  simp [allNodesList]

theorem allNodes_mk (r : Rule) (kids : List RuleNode) :
    (RuleNode.mk r kids).allNodes = RuleNode.mk r kids :: allNodesList kids := by
  simp [RuleNode.allNodes]

theorem mem_allNodesList {nd : RuleNode} : ∀ {ts : List RuleNode},
    nd ∈ allNodesList ts ↔ ∃ t ∈ ts, nd ∈ t.allNodes := by
  intro ts
  induction ts with
  | nil => simp [allNodesList_nil]
  | cons t ts ih =>
    rw [allNodesList_cons, List.mem_append, ih]
    constructor
    · rintro (h | ⟨u, hu, hnd⟩)
      · exact ⟨t, List.mem_cons_self t ts, h⟩
      · exact ⟨u, List.mem_cons_of_mem t hu, hnd⟩
    · rintro ⟨u, hu, hnd⟩
      rcases List.mem_cons.1 hu with hu1 | hu2
      · exact Or.inl (hu1 ▸ hnd)
      · exact Or.inr ⟨u, hu2, hnd⟩

theorem map_rule_filterMap_build {rules : List Rule} {fuel : Nat} {visited : List Nat}
    (l : List Rule) :
    ((l.filterMap (build rules fuel visited)).map RuleNode.rule) =
      l.filter (fun c => (build rules fuel visited c).isSome) := by
  induction l with
  | nil => simp
  | cons c cs ih =>
    rw [List.filterMap_cons, List.filter_cons]
    cases hc : build rules fuel visited c with
    | none => simpa [hc] using ih
    | some t =>
      have : t.rule = c := build_rule hc
      simp [hc, this, ih]

theorem mem_organize {rules : List Rule} {t : RuleNode} :
    t ∈ organize rules ↔
      ∃ rt ∈ childrenOf rules 0, build rules (rules.length + 1) [] rt = some t := by
  unfold organize
  exact List.mem_filterMap

theorem mem_forestRules_organize {rules : List Rule} {x : Rule} :
    x ∈ forestRules (organize rules) ↔
      ∃ rt ∈ childrenOf rules 0, x ∈ subRules rules (rules.length + 1) [] rt := by
  rw [forestRules_organize]
  exact List.mem_flatMap

/-- C1 (amended): the user-rule call site hands the organizer exactly
the root-level (`pid = 0`) rules of type "menu" with status "normal",
while the admin-rule call site hands it the rules filtered by type
"menu" and status "normal" — but not by pid, so non-root entries
intended to become nested children are included — followed by the
plugin-contributed rules appended without further filtering. -/
theorem c1_call_site_filters (db : List Rule) (items : List PluginMenuItem) (r : Rule) :
    (r ∈ user_rules_input db ↔
      r ∈ db ∧ r.pid = 0 ∧ r.type = "menu" ∧ r.status = "normal")
    ∧ (r ∈ admin_rules_input db items ↔
      (r ∈ db ∧ r.type = "menu" ∧ r.status = "normal") ∨ r ∈ plugin_admin_rules items) := by
  constructor
  · unfold user_rules_input get_user_rules sortById
    rw [mem_sortByKey, List.mem_filter]
    simp [and_assoc]
  · unfold admin_rules_input get_admin_rules sortById
    rw [List.mem_append, mem_sortByKey, List.mem_filter]
    simp [and_assoc]

/-- C1 counterexample: a rule with status "normal" but type "link" is
*not* part of what the admin call site passes to the organizer, so the
admin-rule input is not "filtered only by status" — `get_admin_rules`
filters by type "menu" as well. -/
theorem c1_counterexample :
    admin_rules_input [Rule.mk 1 3 "link" "normal" 0 ""] [] = []
    ∧ (Rule.mk 1 3 "link" "normal" 0 "").status = "normal" := by
  constructor
  · rfl
  · rfl

/-- C2 (amended): every database-fetched rule handed to the organizer
(either domain) has status "normal", but the plugin-contributed admin
rules are appended without status filtering: every manifest item
reaches the organizer input with its `status` field copied unchanged,
so a disabled plugin rule appears in the input as well. -/
theorem c2_organizer_input_status (db : List Rule) (items : List PluginMenuItem) :
    (∀ r ∈ user_rules_input db, r.status = "normal")
    ∧ (∀ r ∈ admin_rules_input db items,
        r.status = "normal" ∨ r ∈ plugin_admin_rules items)
    ∧ (∀ it ∈ items, adminRuleOfPluginItem it ∈ admin_rules_input db items
        ∧ (adminRuleOfPluginItem it).status = it.status) := by
  refine ⟨?_, ?_, ?_⟩
  · intro r hr
    unfold user_rules_input get_user_rules sortById at hr
    rw [mem_sortByKey, List.mem_filter] at hr
    have hb := hr.2
    simp only [Bool.and_eq_true, beq_iff_eq] at hb
    exact hb.2
  · intro r hr
    unfold admin_rules_input at hr
    rcases List.mem_append.1 hr with h1 | h2
    · unfold get_admin_rules sortById at h1
      rw [mem_sortByKey, List.mem_filter] at h1
      have hb := h1.2
      simp only [Bool.and_eq_true, beq_iff_eq] at hb
      exact Or.inl hb.2
    · exact Or.inr h2
  · intro it hit
    refine ⟨?_, rfl⟩
    unfold admin_rules_input plugin_admin_rules
    exact List.mem_append_right _ (List.mem_map.2 ⟨it, hit, rfl⟩)

/-- C2 counterexample: a plugin manifest item with status "hidden"
yields a rule in the organizer's admin input whose status is not
"normal". -/
theorem c2_counterexample :
    ¬ ∀ r ∈ admin_rules_input [] [PluginMenuItem.mk 9 0 "menu" "hidden" 0 "x"],
        r.status = "normal" := by
  intro h
  have := h (adminRuleOfPluginItem (PluginMenuItem.mk 9 0 "menu" "hidden" 0 "x"))
    (by rw [admin_rules_input]; exact List.mem_append_right _ (by simp [plugin_admin_rules]))
  simp [adminRuleOfPluginItem] at this

/-- C9: `get_user_rules`, `get_user_rules_query` and
`get_user_rules_all` apply the same filter (pid = 0, type "menu",
status "normal") and the same id-ascending order, so they agree on
every database state; in particular `user_rules_all` contains only the
root-level normal menu rules, not all user rules. -/
theorem c9_user_rule_queries_agree (db : List Rule) :
    get_user_rules db = get_user_rules_query db
    ∧ get_user_rules_query db = get_user_rules_all db
    ∧ ∀ r, r ∈ get_user_rules_all db ↔
        r ∈ db ∧ r.pid = 0 ∧ r.type = "menu" ∧ r.status = "normal" := by
  refine ⟨rfl, rfl, ?_⟩
  intro r
  unfold get_user_rules_all sortById
  rw [mem_sortByKey, List.mem_filter]
  simp [and_assoc]

/-- C3: a rule whose `pid` is non-zero and matches no id of the input
never appears anywhere in the organized forest — it is dropped
silently, neither surfaced as a root nor attached as a child; in
particular the single dangling-parent input `[{id 1, pid 5}]` yields
the empty root sequence. -/
theorem c3_orphans_dropped :
    (∀ (rules : List Rule) (r : Rule), r.pid ≠ 0 → r.pid ∉ rules.map Rule.id →
      r ∉ forestRules (organize rules))
    ∧ organize [Rule.mk 1 5 "menu" "normal" 0 ""] = [] := by
  constructor
  · intro rules r hpid hmem hin
    rcases mem_forestRules_organize.1 hin with ⟨rt, hrt, hsub⟩
    have hrtr := mem_childrenOf.1 hrt
    rcases pid_mem_of_mem_subRules _ _ rt r hrtr.1 hsub with h1 | h2
    · exact hpid (h1 ▸ hrtr.2)
    · exact hmem h2
  · rfl

/-- C3 witness at a concrete input: the orphan rule of the spec's
dangling-parent example is absent from the organized forest. -/
theorem c3_orphans_dropped_witness :
    Rule.mk 1 5 "menu" "normal" 0 "" ∉
      forestRules (organize [Rule.mk 1 5 "menu" "normal" 0 ""]) :=
  c3_orphans_dropped.1 [Rule.mk 1 5 "menu" "normal" 0 ""]
    (Rule.mk 1 5 "menu" "normal" 0 "") (by decide) (by decide)

/-- C4: the organizer terminates on every input — `organize` is a total
function — and no node of the returned forest repeats the id of any of
its ancestors, so the remnants of a `pid` cycle never appear in the
output; the spec's 2-cycle input returns the empty forest. -/
theorem c4_cycles_terminate :
    (∀ (rules : List Rule) (t : RuleNode), t ∈ organize rules → pathDistinct [] t = true)
    ∧ organize [Rule.mk 1 2 "menu" "normal" 0 "", Rule.mk 2 1 "menu" "normal" 0 ""] = [] := by
  constructor
  · intro rules t ht
    rcases mem_organize.1 ht with ⟨rt, _, hb⟩
    exact build_pathDistinct _ _ rt t hb
  · rfl

/-- C4 witness at a concrete input: the single tree organized from a
root with one child has pairwise-distinct ids along its paths. -/
theorem c4_cycles_terminate_witness :
    pathDistinct [] (RuleNode.mk (Rule.mk 1 0 "menu" "normal" 0 "")
      [RuleNode.mk (Rule.mk 2 1 "menu" "normal" 0 "") []]) = true :=
  c4_cycles_terminate.1 [Rule.mk 1 0 "menu" "normal" 0 "", Rule.mk 2 1 "menu" "normal" 0 ""] _
    (by rw [show organize [Rule.mk 1 0 "menu" "normal" 0 "", Rule.mk 2 1 "menu" "normal" 0 ""] =
          [RuleNode.mk (Rule.mk 1 0 "menu" "normal" 0 "")
            [RuleNode.mk (Rule.mk 2 1 "menu" "normal" 0 "") []]] from rfl]
        exact List.mem_singleton.2 rfl)

/-- C2 witness at a concrete input: the single normal menu rule of a
one-rule database reaches the admin organizer input with status
"normal" (no plugin rules involved). -/
theorem c2_organizer_input_status_witness :
    (Rule.mk 1 0 "menu" "normal" 0 "").status = "normal"
    ∨ Rule.mk 1 0 "menu" "normal" 0 "" ∈ plugin_admin_rules [] :=
  (c2_organizer_input_status [Rule.mk 1 0 "menu" "normal" 0 ""] []).2.1
    (Rule.mk 1 0 "menu" "normal" 0 "") (by decide)

/-- C7: organizing the same input list twice yields structurally
identical forests — the transformation is a pure function of its
input, so repeated invocation is idempotent. -/
theorem c7_idempotent (rules : List Rule) :
    structEqList (organize rules) (organize rules) = true :=
  structEqList_refl (organize rules)

/-- C8: the organizer does not modify the rule records: every rule
reachable in the returned forest is — unchanged — one of the input
records, and the derived children structure lives only in the freshly
built `RuleNode` wrappers, never inside a `Rule`. -/
theorem c8_no_mutation (rules : List Rule) (x : Rule)
    (h : x ∈ forestRules (organize rules)) : x ∈ rules := by
  rcases mem_forestRules_organize.1 h with ⟨rt, hrt, hsub⟩
  have hrtr := mem_childrenOf.1 hrt
  rcases mem_rules_of_mem_subRules _ _ rt x hsub with h1 | h2
  · exact h1 ▸ hrtr.1
  · exact h2

/-- C8 witness at a concrete input: the root rule reachable in the
organized forest of a one-rule input is the input record itself. -/
theorem c8_no_mutation_witness :
    Rule.mk 1 0 "menu" "normal" 0 "" ∈ [Rule.mk 1 0 "menu" "normal" 0 ""] :=
  c8_no_mutation [Rule.mk 1 0 "menu" "normal" 0 ""] (Rule.mk 1 0 "menu" "normal" 0 "")
    (by rw [mem_forestRules_organize]
        refine ⟨Rule.mk 1 0 "menu" "normal" 0 "", by decide, ?_⟩
        rw [subRules_succ]
        decide)

theorem children_sorted_of_build {rules : List Rule} :
    ∀ (fuel : Nat) (visited : List Nat) (r : Rule) (t : RuleNode),
      build rules fuel visited r = some t → ∀ nd ∈ t.allNodes,
        (nd.children.map RuleNode.rule).Pairwise (fun a b => a.weigh ≤ b.weigh)
        ∧ ∀ w : Int,
          ((nd.children.map RuleNode.rule).filter (fun c => c.weigh == w)).Sublist rules := by
  intro fuel
  induction fuel with
  | zero => intro visited r t h; simp [build] at h
  | succ fuel ih =>
    intro visited r t h nd hnd
    rw [build_succ] at h
    by_cases hv : r.id ∈ visited
    · simp [hv] at h
    · rw [if_neg hv] at h
      have ht : t = RuleNode.mk r
          ((childrenOf rules r.id).filterMap (build rules fuel (r.id :: visited))) :=
        (Option.some_injective _ h).symm
      subst ht
      rw [allNodes_mk] at hnd
      rcases List.mem_cons.1 hnd with hnd1 | hnd2
      · subst hnd1
        have hmap := @map_rule_filterMap_build rules fuel (r.id :: visited)
          (childrenOf rules r.id)
        constructor
        · show ((RuleNode.mk r _).children.map RuleNode.rule).Pairwise _
          rw [RuleNode.children, hmap]
          exact (sortByKey_pairwise Rule.weigh _).sublist (List.filter_sublist _)
        · intro w
          show (((RuleNode.mk r _).children.map RuleNode.rule).filter _).Sublist rules
          rw [RuleNode.children, hmap]
          rw [List.filter_filter]
          have hcomm : (childrenOf rules r.id).filter
              (fun a => (a.weigh == w) && (build rules fuel (r.id :: visited) a).isSome) =
              ((childrenOf rules r.id).filter (fun a => a.weigh == w)).filter
                (fun a => (build rules fuel (r.id :: visited) a).isSome) := by
            rw [List.filter_filter]
            exact List.filter_congr (fun a _ => by rw [Bool.and_comm])
          rw [hcomm]
          have hstab : (childrenOf rules r.id).filter (fun a => a.weigh == w) =
              (rules.filter (fun x => x.pid == r.id)).filter (fun a => a.weigh == w) := by
            unfold childrenOf
            exact sortByKey_filter_key Rule.weigh w _
          rw [hstab]
          exact ((List.filter_sublist _).trans (List.filter_sublist _)).trans
            (List.filter_sublist _)
      · rcases mem_allNodesList.1 hnd2 with ⟨k, hk, hndk⟩
        rcases List.mem_filterMap.1 hk with ⟨c, _, hck⟩
        exact ih _ c k hck nd hndk

/-- C5: in every organized forest each node's children are sorted by
ascending `weigh`; the children of equal `weigh` form — in order — a
sublist of the input, i.e. they keep their original relative input
order (stability), and when the input is sorted by ascending id (as
both call sites supply it) the equal-`weigh` ties are therefore broken
by ascending id; the spec's three-rule example yields one root (id 1)
with children ordered [id 3, id 2]. -/
theorem c5_children_sorted :
    (∀ (rules : List Rule) (nd : RuleNode), nd ∈ allNodesList (organize rules) →
      (nd.children.map RuleNode.rule).Pairwise (fun a b => a.weigh ≤ b.weigh)
      ∧ ∀ w : Int,
        ((nd.children.map RuleNode.rule).filter (fun c => c.weigh == w)).Sublist rules
        ∧ (rules.Pairwise (fun a b => a.id < b.id) →
          ((nd.children.map RuleNode.rule).filter (fun c => c.weigh == w)).Pairwise
            (fun a b => a.id < b.id)))
    ∧ organize [Rule.mk 1 0 "menu" "normal" 1 "", Rule.mk 2 1 "menu" "normal" 2 "",
        Rule.mk 3 1 "menu" "normal" 1 ""] =
      [RuleNode.mk (Rule.mk 1 0 "menu" "normal" 1 "")
        [RuleNode.mk (Rule.mk 3 1 "menu" "normal" 1 "") [],
         RuleNode.mk (Rule.mk 2 1 "menu" "normal" 2 "") []]] := by
  constructor
  · intro rules nd hnd
    rcases mem_allNodesList.1 hnd with ⟨t, ht, hndt⟩
    rcases mem_organize.1 ht with ⟨rt, _, hb⟩
    have hmain := children_sorted_of_build _ _ rt t hb nd hndt
    refine ⟨hmain.1, fun w => ⟨hmain.2 w, fun hsorted => ?_⟩⟩
    exact hsorted.sublist (hmain.2 w)
  · rfl

/-- C5 witness at the spec's example input: the root node's children
are weigh-sorted and its equal-weigh children are a sublist of the
input. -/
theorem c5_children_sorted_witness :
    ((RuleNode.mk (Rule.mk 1 0 "menu" "normal" 1 "")
      [RuleNode.mk (Rule.mk 3 1 "menu" "normal" 1 "") [],
       RuleNode.mk (Rule.mk 2 1 "menu" "normal" 2 "") []]).children.map
        RuleNode.rule).Pairwise (fun a b => a.weigh ≤ b.weigh) :=
  (c5_children_sorted.1
    [Rule.mk 1 0 "menu" "normal" 1 "", Rule.mk 2 1 "menu" "normal" 2 "",
     Rule.mk 3 1 "menu" "normal" 1 ""] _
    (by rw [show allNodesList (organize [Rule.mk 1 0 "menu" "normal" 1 "",
          Rule.mk 2 1 "menu" "normal" 2 "", Rule.mk 3 1 "menu" "normal" 1 ""]) =
        [RuleNode.mk (Rule.mk 1 0 "menu" "normal" 1 "")
          [RuleNode.mk (Rule.mk 3 1 "menu" "normal" 1 "") [],
           RuleNode.mk (Rule.mk 2 1 "menu" "normal" 2 "") []],
         RuleNode.mk (Rule.mk 3 1 "menu" "normal" 1 "") [],
         RuleNode.mk (Rule.mk 2 1 "menu" "normal" 2 "") []] from rfl]
        exact List.mem_cons_self _ _)).1

theorem hasKey_dictSet (d : JDict) (k : String) (v : JVal) :
    hasKey (dictSet d k v) k = true := by
  unfold dictSet
  by_cases h : hasKey d k
  · rw [if_pos h]
    unfold hasKey at h ⊢
    rcases List.any_eq_true.1 h with ⟨p, hp, hpk⟩
    refine List.any_eq_true.2 ⟨(k, v), ?_, by simp⟩
    refine List.mem_map.2 ⟨p, hp, ?_⟩
    rw [if_pos hpk]
  · rw [if_neg h]
    unfold hasKey
    exact List.any_eq_true.2 ⟨(k, v), List.mem_append_right _ (by simp), by simp⟩

theorem dictGet_dictSet (d : JDict) (k : String) (v : JVal) :
    dictGet (dictSet d k v) k = some v := by
  unfold dictGet dictSet
  by_cases h : hasKey d k
  · rw [if_pos h]
    unfold hasKey at h
    induction d with
    | nil => simp at h
    | cons p ps ih =>
      by_cases hp : p.1 == k
      · rw [List.map_cons, if_pos hp, List.find?_cons_of_pos _ (by simp)]
        rfl
      · rw [List.map_cons, if_neg hp, List.find?_cons_of_neg _ (by simpa using hp)]
        refine ih ?_
        rcases List.any_eq_true.1 h with ⟨q, hq, hqk⟩
        rcases List.mem_cons.1 hq with hq1 | hq2
        · exact absurd (hq1 ▸ hqk) (by simpa using hp)
        · exact List.any_eq_true.2 ⟨q, hq2, hqk⟩
  · rw [if_neg h]
    unfold hasKey at h
    induction d with
    | nil => simp
    | cons p ps ih =>
      have hp : (p.1 == k) = false := by
        by_contra hc
        exact h (List.any_eq_true.2 ⟨p, List.mem_cons_self p ps, by simpa using hc⟩)
      rw [List.cons_append, List.find?_cons_of_neg _ (by simpa using hp)]
      refine ih ?_
      intro hc
      rcases List.any_eq_true.1 hc with ⟨q, hq, hqk⟩
      exact h (List.any_eq_true.2 ⟨q, List.mem_cons_of_mem p hq, hqk⟩)

theorem dictSet_unfold_pos {d : JDict} {k : String} (v : JVal)
    (h : hasKey d k = true) :
    dictSet d k v = d.map (fun p => if p.1 == k then (k, v) else p) := by
  unfold dictSet
  rw [if_pos h]

theorem dictSet_unfold_neg {d : JDict} {k : String} (v : JVal)
    (h : ¬ hasKey d k = true) :
    dictSet d k v = d ++ [(k, v)] := by
  unfold dictSet
  rw [if_neg h]

theorem dictSet_dictSet (d : JDict) (k : String) (v1 v : JVal) :
    dictSet (dictSet d k v1) k v = dictSet d k v := by
  rw [dictSet_unfold_pos v (hasKey_dictSet d k v1)]
  by_cases h : hasKey d k
  · rw [dictSet_unfold_pos v1 h, dictSet_unfold_pos v h, List.map_map]
    refine List.map_congr_left ?_
    intro p _
    by_cases hp : p.1 = k
    · simp [Function.comp, hp]
    · simp [Function.comp, hp]
  · rw [dictSet_unfold_neg v1 h, dictSet_unfold_neg v h, List.map_append]
    congr 1
    · have hid : ∀ p ∈ d, (if p.1 == k then (k, v) else p) = id p := by
        intro p hp
        have hpk : ¬ p.1 = k := by
          intro hc
          unfold hasKey at h
          exact h (List.any_eq_true.2 ⟨p, hp, by simpa using hc⟩)
        simp [hpk]
      rw [List.map_congr_left hid, List.map_id]
    · simp

theorem pyHeap_get_append_lt {l : List JDict} {d : JDict} {a : Nat}
    (h : a < l.length) : (PyHeap.mk (l ++ [d])).get a = (PyHeap.mk l).get a := by
  unfold PyHeap.get
  simp [List.getD, List.getElem?_append_left h]

theorem pyHeap_get_append_len (l : List JDict) (d : JDict) :
    (PyHeap.mk (l ++ [d])).get l.length = d := by
  unfold PyHeap.get
  simp [List.getD]

theorem pyHeap_get_setItem_ne (h : PyHeap) (a b : Nat) (k : String) (v : JVal)
    (hne : a ≠ b) : (h.setItem b k v).get a = h.get a := by
  unfold PyHeap.setItem PyHeap.get
  simp [List.getD, List.getElem?_set_ne (Ne.symm hne)]

theorem pyHeap_get_setItem_eq (h : PyHeap) (b : Nat) (k : String) (v : JVal)
    (hb : b < h.dicts.length) : (h.setItem b k v).get b = dictSet (h.get b) k v := by
  unfold PyHeap.setItem PyHeap.get
  simp [List.getD, List.getElem?_set_self, hb]

theorem pyHeap_setItem_length (h : PyHeap) (b : Nat) (k : String) (v : JVal) :
    (h.setItem b k v).dicts.length = h.dicts.length := by
  unfold PyHeap.setItem
  simp

/-- C10: for a request body containing the key "password", the logger
(1) leaves the request's own JSON dict unchanged — the redaction is
performed on the freshly allocated copy; (2) logs exactly the
serialization of the copy with the password value replaced by the
empty string, so the logged record carries `"password" ↦ ""`; and
(3) produces a content string independent of the actual password
value: two heaps differing only in the password entry of the request
dict log identical content.  The whole body of `log_request_data` is
wrapped in `try/except Exception`, so — as reflected by the model
being a total function — no exception propagates to the request. -/
theorem c10_password_redaction (h : PyHeap) (a : Nat) (hlen : a < h.dicts.length)
    (hpw : hasKey (h.get a) "password" = true) :
    ((log_request_data h a).1.get a = h.get a)
    ∧ ((log_request_data h a).2 =
        serializeJDict (dictSet (h.get a) "password" (JVal.str "")))
    ∧ dictGet (dictSet (h.get a) "password" (JVal.str "")) "password" = some (JVal.str "")
    ∧ ∀ v1 v2 : JVal,
        (log_request_data (h.setItem a "password" v1) a).2 =
        (log_request_data (h.setItem a "password" v2) a).2 := by
  have hga : ∀ (hh : PyHeap), a < hh.dicts.length →
      (PyHeap.mk (hh.dicts ++ [hh.get a])).get a = hh.get a :=
    fun hh hl => pyHeap_get_append_lt hl
  have hcontent : ∀ (hh : PyHeap), a < hh.dicts.length →
      hasKey (hh.get a) "password" = true →
      (log_request_data hh a).2 =
        serializeJDict (dictSet (hh.get a) "password" (JVal.str "")) := by
    intro hh hl hk
    unfold log_request_data PyHeap.alloc
    simp only
    rw [pyHeap_get_append_len, if_pos hk,
      pyHeap_get_setItem_eq _ _ _ _ (by simp), pyHeap_get_append_len]
  have hframe : (log_request_data h a).1.get a = h.get a := by
    unfold log_request_data PyHeap.alloc
    simp only
    rw [pyHeap_get_append_len, if_pos hpw,
      pyHeap_get_setItem_ne _ _ _ _ _ (Nat.ne_of_lt hlen),
      pyHeap_get_append_lt hlen]
  refine ⟨hframe, hcontent h hlen hpw, dictGet_dictSet _ _ _, ?_⟩
  intro v1 v2
  have hset : ∀ v : JVal, (log_request_data (h.setItem a "password" v) a).2 =
      serializeJDict (dictSet (h.get a) "password" (JVal.str "")) := by
    intro v
    have hl : a < (h.setItem a "password" v).dicts.length := by
      rw [pyHeap_setItem_length]; exact hlen
    have hget : (h.setItem a "password" v).get a = dictSet (h.get a) "password" v :=
      pyHeap_get_setItem_eq h a "password" v hlen
    rw [hcontent _ hl (by rw [hget]; exact hasKey_dictSet _ _ _), hget,
      dictSet_dictSet]
  rw [hset v1, hset v2]

/-- C10 witness at a concrete heap: one request dict with a password
entry; the call leaves it unchanged, logs the redacted copy, and logs
identically for two different password values. -/
theorem c10_password_redaction_witness :
    ((log_request_data (PyHeap.mk [[("password", JVal.str "hunter2")]]) 0).1.get 0 =
      (PyHeap.mk [[("password", JVal.str "hunter2")]]).get 0)
    ∧ ((log_request_data (PyHeap.mk [[("password", JVal.str "hunter2")]]) 0).2 =
        serializeJDict (dictSet ((PyHeap.mk [[("password", JVal.str "hunter2")]]).get 0)
          "password" (JVal.str "")))
    ∧ dictGet (dictSet ((PyHeap.mk [[("password", JVal.str "hunter2")]]).get 0)
        "password" (JVal.str "")) "password" = some (JVal.str "")
    ∧ ∀ v1 v2 : JVal,
        (log_request_data ((PyHeap.mk [[("password", JVal.str "hunter2")]]).setItem 0
          "password" v1) 0).2 =
        (log_request_data ((PyHeap.mk [[("password", JVal.str "hunter2")]]).setItem 0
          "password" v2) 0).2 :=
  c10_password_redaction (PyHeap.mk [[("password", JVal.str "hunter2")]]) 0
    (by decide) (by decide)

/-- Derivation witnessing that rule `x` lies in the subtree the
organizer assembles for `r` under visited set `V`, provided the fuel is
at least `k + 1`; `W` records the visited set in force at `x`'s own
children — the ids of the chain from `r` down to `x`, most recent
first, on top of `V`. -/
inductive SubV (rules : List Rule) : Nat → List Nat → List Nat → Rule → Rule → Prop
  | refl (V : List Nat) (r : Rule) : r.id ∉ V → SubV rules 0 V (r.id :: V) r r
  | step (V W : List Nat) (r c x : Rule) (k : Nat) :
      c ∈ rules → c.pid = r.id → r.id ∉ V →
      SubV rules k (r.id :: V) W c x → SubV rules (k + 1) V W r x

theorem subV_of_mem_subRules {rules : List Rule} :
    ∀ (fuel : Nat) (V : List Nat) (r x : Rule), x ∈ subRules rules fuel V r →
      ∃ k W, SubV rules k V W r x ∧ k + 1 ≤ fuel := by
  intro fuel
  induction fuel with
  | zero => intro V r x h; simp [subRules_zero] at h
  | succ fuel ih =>
    intro V r x h
    have hv := subRules_root_not_visited h
    rcases mem_subRules_cases h with h1 | ⟨c, hc, hx⟩
    · subst h1
      exact ⟨0, _, SubV.refl V x hv, Nat.succ_le_succ (Nat.zero_le _)⟩
    · have hcr := mem_childrenOf.1 hc
      rcases ih _ c x hx with ⟨k, W, d, hk⟩
      exact ⟨k + 1, W, SubV.step V W r c x k hcr.1 hcr.2 hv d, Nat.succ_le_succ hk⟩

theorem mem_subRules_of_subV {rules : List Rule} {k : Nat} {V W : List Nat} {r x : Rule}
    (d : SubV rules k V W r x) : ∀ fuel, k + 1 ≤ fuel → x ∈ subRules rules fuel V r := by
  induction d with
  | refl V r hv =>
    intro fuel hf
    rcases Nat.exists_eq_add_of_le hf with ⟨m, hm⟩
    rw [hm, Nat.add_comm]
    exact self_mem_subRules hv
  | step V W r c x k hc hpid hv _ ih =>
    intro fuel hf
    rcases Nat.exists_eq_add_of_le hf with ⟨m, hm⟩
    have hne : fuel = (k + 1 + m) + 1 := by omega
    rw [hne]
    exact mem_subRules_sub (mem_childrenOf.2 ⟨hc, hpid⟩)
      (ih (k + 1 + m) (by omega)) hv

theorem subV_V_subset {rules : List Rule} {k : Nat} {V W : List Nat} {r x : Rule}
    (d : SubV rules k V W r x) : V ⊆ W ∧ r.id ∈ W := by
  induction d with
  | refl V r hv => exact ⟨List.subset_cons_self _ _, List.mem_cons_self _ _⟩
  | step V W r c x k hc hpid hv _ ih =>
    exact ⟨fun a ha => ih.1 (List.mem_cons_of_mem _ ha), ih.1 (List.mem_cons_self _ _)⟩

theorem subV_W_nodup {rules : List Rule} {k : Nat} {V W : List Nat} {r x : Rule}
    (d : SubV rules k V W r x) : V.Nodup → W.Nodup := by
  induction d with
  | refl V r hv => exact fun hn => List.nodup_cons.2 ⟨hv, hn⟩
  | step V W r c x k hc hpid hv _ ih =>
    exact fun hn => ih (List.nodup_cons.2 ⟨hv, hn⟩)

theorem subV_W_length {rules : List Rule} {k : Nat} {V W : List Nat} {r x : Rule}
    (d : SubV rules k V W r x) : W.length = k + 1 + V.length := by
  induction d with
  | refl V r hv => simp; omega
  | step V W r c x k hc hpid hv _ ih => simp at ih ⊢; omega

theorem subV_W_mem {rules : List Rule} {k : Nat} {V W : List Nat} {r x : Rule}
    (d : SubV rules k V W r x) : r ∈ rules → ∀ w ∈ W, w ∈ V ∨ w ∈ rules.map Rule.id := by
  induction d with
  | refl V r hv =>
    intro hr w hw
    rcases List.mem_cons.1 hw with hw1 | hw2
    · exact Or.inr (hw1 ▸ List.mem_map.2 ⟨r, hr, rfl⟩)
    · exact Or.inl hw2
  | step V W r c x k hc hpid hv _ ih =>
    intro hr w hw
    rcases ih hc w hw with h1 | h2
    · rcases List.mem_cons.1 h1 with hw1 | hw2
      · exact Or.inr (hw1 ▸ List.mem_map.2 ⟨r, hr, rfl⟩)
      · exact Or.inl hw2
    · exact Or.inr h2

theorem subV_extend {rules : List Rule} {k : Nat} {V W : List Nat} {r x : Rule}
    (d : SubV rules k V W r x) :
    ∀ (c : Rule), c ∈ rules → c.pid = x.id → c.id ∉ W →
      SubV rules (k + 1) V (c.id :: W) r c := by
  induction d with
  | refl V r hv =>
    intro c hc hcp hcw
    have hcv : c.id ∉ r.id :: V := hcw
    exact SubV.step V _ r c c 0 hc hcp hv (SubV.refl (r.id :: V) c hcv)
  | step V W r c0 x k hc0 hpid hv _ ih =>
    intro c hc hcp hcw
    exact SubV.step V _ r c0 c (k + 1) hc0 hpid hv (ih c hc hcp hcw)

/-- One step up the parent chain: the first input rule whose id equals
`x.pid` (the unique one when ids are distinct). -/
def pStep (rules : List Rule) (x : Rule) : Option Rule :=
  rules.find? (fun p => p.id == x.pid)

/-- `k` steps up the parent chain from `x`. -/
def pIter (rules : List Rule) : Nat → Rule → Option Rule
  | 0, x => some x
  | k + 1, x =>
    match pStep rules x with
    | some p => pIter rules k p
    | none => none

theorem pIter_step_elim (rules : List Rule) (k : Nat) (x p : Rule)
    (hs : pStep rules x = some p) : pIter rules (k + 1) x = pIter rules k p := by
  show (match pStep rules x with
    | some q => pIter rules k q
    | none => none) = _
  rw [hs]

theorem pIter_step_none (rules : List Rule) (k : Nat) (x : Rule)
    (hs : pStep rules x = none) : pIter rules (k + 1) x = none := by
  show (match pStep rules x with
    | some q => pIter rules k q
    | none => none) = none
  rw [hs]

theorem pIter_succ_top (rules : List Rule) :
    ∀ (k : Nat) (x : Rule), pIter rules (k + 1) x =
      match pIter rules k x with
      | some y => pStep rules y
      | none => none := by
  intro k
  induction k with
  | zero =>
    intro x
    show pIter rules 1 x = pStep rules x
    cases hs : pStep rules x with
    | none => exact pIter_step_none rules 0 x hs
    | some p => exact pIter_step_elim rules 0 x p hs
  | succ k ih =>
    intro x
    cases hs : pStep rules x with
    | none =>
      rw [pIter_step_none rules (k + 1) x hs, pIter_step_none rules k x hs]
    | some p =>
      rw [pIter_step_elim rules (k + 1) x p hs, ih p,
        pIter_step_elim rules k x p hs]

theorem pIter_none_mono (rules : List Rule) :
    ∀ (k j : Nat) (x : Rule), pIter rules j x = none → j ≤ k → pIter rules k x = none := by
  intro k
  induction k with
  | zero =>
    intro j x hj hle
    have : j = 0 := Nat.le_zero.1 hle
    exact this ▸ hj
  | succ k ih =>
    intro j x hj hle
    rcases Nat.lt_or_ge j (k + 1) with hlt | hge
    · have hk : pIter rules k x = none := ih j x hj (Nat.lt_succ_iff.1 hlt)
      rw [pIter_succ_top, hk]
    · have : j = k + 1 := Nat.le_antisymm hle hge
      exact this ▸ hj

theorem find?_id_eq_some {rules : List Rule} (h1 : (rules.map Rule.id).Nodup)
    {r : Rule} (hr : r ∈ rules) : rules.find? (fun p => p.id == r.id) = some r := by
  induction rules with
  | nil => simp at hr
  | cons y ys ih =>
    rw [List.map_cons, List.nodup_cons] at h1
    rcases List.mem_cons.1 hr with hr1 | hr2
    · subst hr1
      exact List.find?_cons_of_pos _ (by simp)
    · have hy : (y.id == r.id) = false := by
        refine beq_eq_false_iff_ne.2 ?_
        intro hc
        exact h1.1 (hc ▸ List.mem_map.2 ⟨r, hr2, rfl⟩)
      rw [List.find?_cons_of_neg _ (by simp [hy])]
      exact ih h1.2 hr2

theorem subV_pIter {rules : List Rule} (h1 : (rules.map Rule.id).Nodup) :
    ∀ {k : Nat} {V W : List Nat} {r x : Rule},
      SubV rules k V W r x → r ∈ rules → pIter rules k x = some r := by
  intro k V W r x d
  induction d with
  | refl V r hv => intro _; rfl
  | step V W r c x k hc hpid hv dInner ih =>
    intro hr
    rw [pIter_succ_top, ih hc]
    show pStep rules c = some r
    unfold pStep
    rw [hpid]
    exact find?_id_eq_some h1 hr

theorem subV_pIter_avoid {rules : List Rule} (h1 : (rules.map Rule.id).Nodup) :
    ∀ {k : Nat} {V W : List Nat} {r x : Rule},
      SubV rules k V W r x → r ∈ rules →
      ∀ j, j ≤ k → ∃ y, pIter rules j x = some y ∧ y.id ∉ V := by
  intro k V W r x d
  induction d with
  | refl V r hv =>
    intro _ j hj
    have : j = 0 := Nat.le_zero.1 hj
    subst this
    exact ⟨r, rfl, hv⟩
  | step V W r c x k hc hpid hv dInner ih =>
    intro hr j hj
    rcases Nat.lt_or_ge j (k + 1) with hlt | hge
    · rcases ih hc j (Nat.lt_succ_iff.1 hlt) with ⟨y, hy, hyv⟩
      exact ⟨y, hy, fun hc2 => hyv (List.mem_cons_of_mem _ hc2)⟩
    · have hjk : j = k + 1 := Nat.le_antisymm hj hge
      subst hjk
      refine ⟨r, ?_, hv⟩
      rw [pIter_succ_top, subV_pIter h1 dInner hc]
      show pStep rules c = some r
      unfold pStep
      rw [hpid]
      exact find?_id_eq_some h1 hr

theorem rules_id_inj {rules : List Rule} (h1 : (rules.map Rule.id).Nodup) :
    ∀ {a b : Rule}, a ∈ rules → b ∈ rules → a.id = b.id → a = b := by
  induction rules with
  | nil => intro a b ha; simp at ha
  | cons y ys ih =>
    rw [List.map_cons, List.nodup_cons] at h1
    intro a b ha hb hab
    rcases List.mem_cons.1 ha with ha1 | ha2 <;> rcases List.mem_cons.1 hb with hb1 | hb2
    · exact ha1.trans hb1.symm
    · subst ha1
      exact absurd (hab ▸ List.mem_map.2 ⟨b, hb2, rfl⟩) h1.1
    · subst hb1
      exact absurd (hab ▸ List.mem_map.2 ⟨a, ha2, rfl⟩) h1.1
    · exact ih h1.2 ha2 hb2 hab

theorem siblings_unique_le {rules : List Rule} (h1 : (rules.map Rule.id).Nodup)
    {V : List Nat} {r c1 c2 x : Rule} {k1 k2 : Nat} {W1 W2 : List Nat}
    (hr : r ∈ rules) (hc1 : c1 ∈ rules) (hc2 : c2 ∈ rules)
    (hp1 : c1.pid = r.id)
    (d1 : SubV rules k1 (r.id :: V) W1 c1 x) (d2 : SubV rules k2 (r.id :: V) W2 c2 x)
    (hle : k1 ≤ k2) : c1 = c2 := by
  rcases Nat.lt_or_ge k1 k2 with hlt | hge
  · exfalso
    have hit1 : pIter rules k1 x = some c1 := subV_pIter h1 d1 hc1
    have hnext : pIter rules (k1 + 1) x = some r := by
      rw [pIter_succ_top, hit1]
      show pStep rules c1 = some r
      unfold pStep
      rw [hp1]
      exact find?_id_eq_some h1 hr
    rcases subV_pIter_avoid h1 d2 hc2 (k1 + 1) hlt with ⟨y, hy, hyv⟩
    have : y = r := Option.some_injective _ (hy.symm.trans hnext)
    subst this
    exact hyv (List.mem_cons_self _ _)
  · have hk : k1 = k2 := Nat.le_antisymm hle hge
    subst hk
    exact Option.some_injective _
      ((subV_pIter h1 d1 hc1).symm.trans (subV_pIter h1 d2 hc2))

theorem siblings_unique {rules : List Rule} (h1 : (rules.map Rule.id).Nodup)
    {V : List Nat} {r c1 c2 x : Rule} {fuel1 fuel2 : Nat}
    (hr : r ∈ rules) (hc1 : c1 ∈ childrenOf rules r.id) (hc2 : c2 ∈ childrenOf rules r.id)
    (hx1 : x ∈ subRules rules fuel1 (r.id :: V) c1)
    (hx2 : x ∈ subRules rules fuel2 (r.id :: V) c2) : c1 = c2 := by
  have hm1 := mem_childrenOf.1 hc1
  have hm2 := mem_childrenOf.1 hc2
  rcases subV_of_mem_subRules _ _ c1 x hx1 with ⟨k1, W1, d1, _⟩
  rcases subV_of_mem_subRules _ _ c2 x hx2 with ⟨k2, W2, d2, _⟩
  rcases Nat.le_total k1 k2 with hle | hle
  · exact siblings_unique_le h1 hr hm1.1 hm2.1 hm1.2 d1 d2 hle
  · exact (siblings_unique_le h1 hr hm2.1 hm1.1 hm2.2 d2 d1 hle).symm

theorem roots_unique_le {rules : List Rule} (h1 : (rules.map Rule.id).Nodup)
    (h2 : ∀ r ∈ rules, r.id ≠ 0)
    {rt1 rt2 x : Rule} {k1 k2 : Nat} {W1 W2 : List Nat}
    (hr1 : rt1 ∈ rules) (hr2 : rt2 ∈ rules) (hp1 : rt1.pid = 0)
    (d1 : SubV rules k1 [] W1 rt1 x) (d2 : SubV rules k2 [] W2 rt2 x)
    (hle : k1 ≤ k2) : rt1 = rt2 := by
  rcases Nat.lt_or_ge k1 k2 with hlt | hge
  · exfalso
    have hit1 : pIter rules k1 x = some rt1 := subV_pIter h1 d1 hr1
    have hnone : pIter rules (k1 + 1) x = none := by
      rw [pIter_succ_top, hit1]
      show pStep rules rt1 = none
      unfold pStep
      rw [hp1]
      refine List.find?_eq_none.2 ?_
      intro p hp
      simpa using h2 p hp
    have := pIter_none_mono rules k2 (k1 + 1) x hnone hlt
    rw [subV_pIter h1 d2 hr2] at this
    exact Option.some_ne_none _ this
  · have hk : k1 = k2 := Nat.le_antisymm hle hge
    subst hk
    exact Option.some_injective _
      ((subV_pIter h1 d1 hr1).symm.trans (subV_pIter h1 d2 hr2))

theorem roots_unique {rules : List Rule} (h1 : (rules.map Rule.id).Nodup)
    (h2 : ∀ r ∈ rules, r.id ≠ 0)
    {rt1 rt2 x : Rule} {fuel1 fuel2 : Nat}
    (hc1 : rt1 ∈ childrenOf rules 0) (hc2 : rt2 ∈ childrenOf rules 0)
    (hx1 : x ∈ subRules rules fuel1 [] rt1)
    (hx2 : x ∈ subRules rules fuel2 [] rt2) : rt1 = rt2 := by
  have hm1 := mem_childrenOf.1 hc1
  have hm2 := mem_childrenOf.1 hc2
  rcases subV_of_mem_subRules _ _ rt1 x hx1 with ⟨k1, W1, d1, _⟩
  rcases subV_of_mem_subRules _ _ rt2 x hx2 with ⟨k2, W2, d2, _⟩
  rcases Nat.le_total k1 k2 with hle | hle
  · exact roots_unique_le h1 h2 hm1.1 hm2.1 hm1.2 d1 d2 hle
  · exact (roots_unique_le h1 h2 hm2.1 hm1.1 hm2.2 d2 d1 hle).symm

theorem subRules_ids_nodup {rules : List Rule} (h1 : (rules.map Rule.id).Nodup) :
    ∀ (fuel : Nat) (V : List Nat) (r : Rule), r ∈ rules →
      ((subRules rules fuel V r).map Rule.id).Nodup := by
  intro fuel
  induction fuel with
  | zero => intro V r _; simp [subRules_zero]
  | succ fuel ih =>
    intro V r hr
    rw [subRules_succ]
    by_cases hv : r.id ∈ V
    · simp [hv]
    · rw [if_neg hv, List.map_cons, List.nodup_cons]
      constructor
      · intro hmem
        rcases List.mem_map.1 hmem with ⟨x, hx, hxid⟩
        rcases List.mem_flatMap.1 hx with ⟨c, hc, hxc⟩
        have hnv := id_not_visited_of_mem_subRules _ _ c x hxc
        exact hnv (hxid ▸ List.mem_cons_self _ _)
      · rw [List.map_flatMap]
        refine List.nodup_flatMap.2 ⟨?_, ?_⟩
        · intro c hc
          exact ih _ c (mem_childrenOf.1 hc).1
        · have hnd := childrenOf_nodup (List.Nodup.of_map _ h1) r.id
          refine List.Pairwise.imp_of_mem ?_ hnd
          intro a b ha hb hab
          intro i hia hib
          rcases List.mem_map.1 hia with ⟨x1, hx1, hid1⟩
          rcases List.mem_map.1 hib with ⟨x2, hx2, hid2⟩
          have hx1r : x1 ∈ rules := by
            rcases mem_rules_of_mem_subRules _ _ a x1 hx1 with he | hm
            · exact he ▸ (mem_childrenOf.1 ha).1
            · exact hm
          have hx2r : x2 ∈ rules := by
            rcases mem_rules_of_mem_subRules _ _ b x2 hx2 with he | hm
            · exact he ▸ (mem_childrenOf.1 hb).1
            · exact hm
          have hx12 : x1 = x2 := rules_id_inj h1 hx1r hx2r (hid1.trans hid2.symm)
          subst hx12
          exact hab (siblings_unique h1 hr ha hb hx1 hx2)

theorem forestIds_nodup {rules : List Rule} (h1 : (rules.map Rule.id).Nodup)
    (h2 : ∀ r ∈ rules, r.id ≠ 0) : (forestIds (organize rules)).Nodup := by
  unfold forestIds
  rw [forestRules_organize, List.map_flatMap]
  refine List.nodup_flatMap.2 ⟨?_, ?_⟩
  · intro rt hrt
    exact subRules_ids_nodup h1 _ [] rt (mem_childrenOf.1 hrt).1
  · have hnd := childrenOf_nodup (List.Nodup.of_map _ h1) 0
    refine List.Pairwise.imp_of_mem ?_ hnd
    intro a b ha hb hab
    intro i hia hib
    rcases List.mem_map.1 hia with ⟨x1, hx1, hid1⟩
    rcases List.mem_map.1 hib with ⟨x2, hx2, hid2⟩
    have hx1r : x1 ∈ rules := by
      rcases mem_rules_of_mem_subRules _ _ a x1 hx1 with he | hm
      · exact he ▸ (mem_childrenOf.1 ha).1
      · exact hm
    have hx2r : x2 ∈ rules := by
      rcases mem_rules_of_mem_subRules _ _ b x2 hx2 with he | hm
      · exact he ▸ (mem_childrenOf.1 hb).1
      · exact hm
    have hx12 : x1 = x2 := rules_id_inj h1 hx1r hx2r (hid1.trans hid2.symm)
    subst hx12
    exact hab (roots_unique h1 h2 ha hb hx1 hx2)

theorem liveB_to_subV {rules : List Rule} :
    ∀ (fuel : Nat) (V : List Nat) (x : Rule),
      liveB rules fuel V x = true → x ∈ rules →
      ∃ k W rt, rt ∈ rules ∧ rt.pid = 0 ∧ SubV rules k [] W rt x ∧ ∀ w ∈ W, w ∉ V := by
  intro fuel
  induction fuel with
  | zero => intro V x h; simp [liveB] at h
  | succ fuel ih =>
    intro V x h hx
    unfold liveB at h
    by_cases hv : x.id ∈ V
    · simp [hv] at h
    · rw [if_neg hv] at h
      by_cases hp : x.pid == 0
      · have hp0 : x.pid = 0 := beq_iff_eq.1 hp
        refine ⟨0, [x.id], x, hx, hp0, SubV.refl [] x (by simp), ?_⟩
        intro w hw
        rcases List.mem_singleton.1 hw with hw1
        exact hw1 ▸ hv
      · rw [if_neg hp] at h
        cases hfind : rules.find? (fun p => p.id == x.pid) with
        | none => rw [hfind] at h; simp at h
        | some p =>
          rw [hfind] at h
          have hpr : p ∈ rules := List.mem_of_find?_eq_some hfind
          have hps := List.find?_some hfind
          have hpid : p.id = x.pid := beq_iff_eq.1 hps
          rcases ih _ p h hpr with ⟨k, W, rt, hrt, hrt0, d, hW⟩
          have hxW : x.id ∉ W := by
            intro hc
            exact hW x.id hc (List.mem_cons_self _ _)
          refine ⟨k + 1, x.id :: W, rt, hrt, hrt0, subV_extend d x hx hpid.symm hxW, ?_⟩
          intro w hw
          rcases List.mem_cons.1 hw with hw1 | hw2
          · exact hw1 ▸ hv
          · exact fun hc => hW w hw2 (List.mem_cons_of_mem _ hc)

theorem live_mem_forest {rules : List Rule} {x : Rule} (hx : x ∈ rules)
    (hlive : liveB rules (rules.length + 1) [] x = true) :
    x ∈ forestRules (organize rules) := by
  rcases liveB_to_subV _ [] x hlive hx with ⟨k, W, rt, hrt, hrt0, d, _⟩
  have hWlen : W.length = k + 1 := by
    have := subV_W_length d
    simpa using this
  have hWnodup : W.Nodup := subV_W_nodup d (List.nodup_nil)
  have hWsub : W ⊆ rules.map Rule.id := by
    intro w hw
    rcases subV_W_mem d hrt w hw with h1 | h2
    · simp at h1
    · exact h2
  have hklen : k + 1 ≤ rules.length := by
    have := (List.subperm_of_subset hWnodup hWsub).length_le
    rw [hWlen, List.length_map] at this
    exact this
  have hmem : x ∈ subRules rules (rules.length + 1) [] rt :=
    mem_subRules_of_subV d (rules.length + 1) (Nat.le_succ_of_le hklen)
  rw [mem_forestRules_organize]
  exact ⟨rt, mem_childrenOf.2 ⟨hrt, hrt0⟩, hmem⟩

theorem liveB_succ (rules : List Rule) (f : Nat) (V : List Nat) (x : Rule) :
    liveB rules (f + 1) V x =
      if x.id ∈ V then false
      else if x.pid == 0 then true
      else
        match rules.find? (fun p => p.id == x.pid) with
        | some p => liveB rules f (x.id :: V) p
        | none => false := rfl

theorem subRules_to_liveB {rules : List Rule} (h1 : (rules.map Rule.id).Nodup)
    (h2 : ∀ r ∈ rules, r.id ≠ 0) :
    ∀ (fuel : Nat) (V : List Nat) (r x : Rule), x ∈ subRules rules fuel V r →
      ∀ (A : List Nat), r.id ∈ A → A ⊆ r.id :: V → A.Nodup →
        (∀ a ∈ A, a ∈ rules.map Rule.id) → r ∈ rules →
        (∀ (f : Nat) (V' : List Nat), A.length ≤ f → (∀ a ∈ A, a ∉ V') →
          liveB rules f V' r = true) →
        ∃ B : List Nat, B.Nodup ∧ (∀ b ∈ B, b ∈ rules.map Rule.id) ∧
          (∀ (f : Nat) (V' : List Nat), B.length ≤ f → (∀ b ∈ B, b ∉ V') →
            liveB rules f V' x = true) := by
  intro fuel
  induction fuel with
  | zero => intro V r x h; simp [subRules_zero] at h
  | succ fuel ih =>
    intro V r x h A hrA hAsub hAnodup hAids hr HR
    rcases mem_subRules_cases h with h1x | ⟨c, hc, hx⟩
    · subst h1x
      exact ⟨A, hAnodup, hAids, HR⟩
    · have hcm := mem_childrenOf.1 hc
      have hcv : c.id ∉ r.id :: V := subRules_root_not_visited hx
      have hcA : c.id ∉ A := fun hca => hcv (hAsub hca)
      refine ih _ c x hx (c.id :: A) (List.mem_cons_self _ _) ?_
        (List.nodup_cons.2 ⟨hcA, hAnodup⟩) ?_ hcm.1 ?_
      · intro a ha
        rcases List.mem_cons.1 ha with ha1 | ha2
        · exact ha1 ▸ List.mem_cons_self _ _
        · exact List.mem_cons_of_mem _ (hAsub ha2)
      · intro a ha
        rcases List.mem_cons.1 ha with ha1 | ha2
        · exact ha1 ▸ List.mem_map.2 ⟨c, hcm.1, rfl⟩
        · exact hAids a ha2
      · intro f V' hf hV'
        cases f with
        | zero => simp at hf
        | succ f' =>
          have hcV' : c.id ∉ V' := hV' c.id (List.mem_cons_self _ _)
          have hrid0 : r.id ≠ 0 := by
            rcases List.mem_map.1 (hAids r.id hrA) with ⟨rr, hrr, hrrid⟩
            exact hrrid ▸ h2 rr hrr
          have hp0 : (c.pid == 0) = false := by
            rw [hcm.2]
            exact beq_eq_false_iff_ne.2 hrid0
          have hfind : rules.find? (fun p => p.id == c.pid) = some r := by
            rw [hcm.2]
            exact find?_id_eq_some h1 hr
          rw [liveB_succ, if_neg hcV', if_neg (by simp [hp0]), hfind]
          show liveB rules f' (c.id :: V') r = true
          refine HR f' (c.id :: V') ?_ ?_
          · have : A.length + 1 ≤ f' + 1 := by simpa using hf
            omega
          · intro a ha
            intro hmem
            rcases List.mem_cons.1 hmem with ha1 | ha2
            · exact hcA (ha1 ▸ ha)
            · exact hV' a (List.mem_cons_of_mem _ ha) ha2

theorem forest_to_liveB {rules : List Rule} (h1 : (rules.map Rule.id).Nodup)
    (h2 : ∀ r ∈ rules, r.id ≠ 0) {x : Rule}
    (hx : x ∈ forestRules (organize rules)) :
    x ∈ rules ∧ liveB rules (rules.length + 1) [] x = true := by
  rcases mem_forestRules_organize.1 hx with ⟨rt, hrt, hsub⟩
  have hm := mem_childrenOf.1 hrt
  have hxr : x ∈ rules := by
    rcases mem_rules_of_mem_subRules _ _ rt x hsub with he | hmm
    · exact he ▸ hm.1
    · exact hmm
  have HR0 : ∀ (f : Nat) (V' : List Nat), ([rt.id] : List Nat).length ≤ f →
      (∀ a ∈ ([rt.id] : List Nat), a ∉ V') → liveB rules f V' rt = true := by
    intro f V' hf hV'
    cases f with
    | zero => simp at hf
    | succ f' =>
      rw [liveB_succ, if_neg (hV' rt.id (List.mem_singleton_self _)),
        if_pos (by simp [hm.2])]
  rcases subRules_to_liveB h1 h2 _ [] rt x hsub [rt.id] (List.mem_singleton_self _)
    (by intro a ha; simpa using ha) (List.nodup_singleton _)
    (by intro a ha
        rw [List.mem_singleton.1 ha]
        exact List.mem_map.2 ⟨rt, hm.1, rfl⟩) hm.1 HR0 with ⟨B, hBnodup, hBids, hB⟩
  have hBlen : B.length ≤ rules.length := by
    have hl := (List.subperm_of_subset hBnodup hBids).length_le
    rwa [List.length_map] at hl
  exact ⟨hxr, hB (rules.length + 1) [] (Nat.le_succ_of_le hBlen) (by simp)⟩

/-- C6 (amended): for inputs whose ids are pairwise distinct and never
the root sentinel 0, the multiset of node ids reachable in the
organized forest equals the multiset of input ids minus the orphaned
and cyclic ids — the ids whose `pid` chain fails to reach 0 — so no id
is duplicated and no id absent from the input is invented. -/
theorem c6_reachable_ids (rules : List Rule)
    (h1 : (rules.map Rule.id).Nodup) (h2 : ∀ r ∈ rules, r.id ≠ 0) :
    (forestIds (organize rules)).Perm ((liveRules rules).map Rule.id) := by
  have hforest := forestIds_nodup h1 h2
  have hlivend : ((liveRules rules).map Rule.id).Nodup := by
    have hsub : (liveRules rules).Sublist rules := List.filter_sublist rules
    exact h1.sublist (hsub.map Rule.id)
  refine (List.perm_ext_iff_of_nodup hforest hlivend).2 ?_
  intro i
  unfold forestIds
  constructor
  · intro hi
    rcases List.mem_map.1 hi with ⟨x, hx, hxi⟩
    have hlx := forest_to_liveB h1 h2 hx
    refine List.mem_map.2 ⟨x, ?_, hxi⟩
    unfold liveRules
    exact List.mem_filter.2 ⟨hlx.1, hlx.2⟩
  · intro hi
    rcases List.mem_map.1 hi with ⟨x, hx, hxi⟩
    unfold liveRules at hx
    have hxf := List.mem_filter.1 hx
    exact List.mem_map.2 ⟨x, live_mem_forest hxf.1 hxf.2, hxi⟩

/-- C6 counterexample: with input ids {0, 1} — distinct, neither
orphaned nor cyclic (both have pid 0, i.e. both are roots) — the
organized forest reaches the ids [0, 1, 1]: the rule with id 1 appears
both as a root and as a child of the root whose id is the sentinel 0,
so an id is duplicated and the reachable multiset differs from the
input multiset although nothing is orphaned or cyclic. -/
theorem c6_counterexample :
    forestIds (organize [Rule.mk 0 0 "menu" "normal" 1 "", Rule.mk 1 0 "menu" "normal" 2 ""])
      = [0, 1, 1]
    ∧ (([Rule.mk 0 0 "menu" "normal" 1 "", Rule.mk 1 0 "menu" "normal" 2 ""].map
        Rule.id).Nodup)
    ∧ liveRules [Rule.mk 0 0 "menu" "normal" 1 "", Rule.mk 1 0 "menu" "normal" 2 ""]
      = [Rule.mk 0 0 "menu" "normal" 1 "", Rule.mk 1 0 "menu" "normal" 2 ""]
    ∧ ¬ (forestIds (organize [Rule.mk 0 0 "menu" "normal" 1 "",
          Rule.mk 1 0 "menu" "normal" 2 ""])).Perm
        ((liveRules [Rule.mk 0 0 "menu" "normal" 1 "",
          Rule.mk 1 0 "menu" "normal" 2 ""]).map Rule.id) := by
  refine ⟨rfl, by decide, rfl, ?_⟩
  intro h
  have hlen := h.length_eq
  rw [show forestIds (organize [Rule.mk 0 0 "menu" "normal" 1 "",
    Rule.mk 1 0 "menu" "normal" 2 ""]) = [0, 1, 1] from rfl] at hlen
  rw [show (liveRules [Rule.mk 0 0 "menu" "normal" 1 "",
    Rule.mk 1 0 "menu" "normal" 2 ""]).map Rule.id = [0, 1] from rfl] at hlen
  simp at hlen

/-- C6 witness at a concrete input: a root (id 1) with one child
(id 2); the forest reaches exactly the live input ids. -/
theorem c6_reachable_ids_witness :
    (forestIds (organize [Rule.mk 1 0 "menu" "normal" 0 "",
      Rule.mk 2 1 "menu" "normal" 0 ""])).Perm
      ((liveRules [Rule.mk 1 0 "menu" "normal" 0 "",
        Rule.mk 2 1 "menu" "normal" 0 ""]).map Rule.id) :=
  c6_reachable_ids [Rule.mk 1 0 "menu" "normal" 0 "", Rule.mk 2 1 "menu" "normal" 0 ""]
    (by decide) (by decide)
